import Mathlib

/-
  Shallow embedding of the pzsh core pipeline (config compiler, cached
  parser, executor, prompt renderer, git cache) from the Rust sources:
  src/lib.rs, src/config/mod.rs, src/parser/mod.rs, src/executor/mod.rs,
  src/prompt/mod.rs.

  Modelling conventions:
  - Rust `String` is Lean `String` (a wrapper around `List Char`);
    hash maps (`AHashMap`) become association lists with first-match
    `List.lookup`; hash sets become `List String` with `List.contains`.
  - Wall-clock time is external input: every timed operation takes an
    explicit `elapsedMs : Nat` argument standing for the measured
    elapsed milliseconds of that call.
  - Stateful methods on `&mut self` become functions returning the
    updated state; `Result<T, PzshError>` becomes
    `Except PzshError T`.
-/

namespace Pzsh

/-- `MAX_STARTUP_MS` from src/lib.rs. -/
def MAX_STARTUP_MS : Nat := 10

/-- `MAX_PROMPT_MS` from src/lib.rs. -/
def MAX_PROMPT_MS : Nat := 2

/-- `MAX_PARSER_MS` from src/lib.rs. -/
def MAX_PARSER_MS : Nat := 2

/-- `MAX_EXECUTOR_MS` from src/lib.rs. -/
def MAX_EXECUTOR_MS : Nat := 2

/-- Shell type supported by pzsh (src/lib.rs). -/
inductive ShellType where
  | Zsh
  | Bash
deriving DecidableEq, Repr

/-- Configuration errors (src/config/mod.rs `ConfigError`).
The Rust `Parse` and `Io` variants wrap external library errors
(toml deserialization, file I/O) that `compile` itself never produces;
they are modelled as message-carrying variants. -/
inductive ConfigError where
  | Invalid (msg : String)
  | ForbiddenPattern (msg : String)
  | Parse (msg : String)
  | Io (msg : String)
deriving DecidableEq, Repr

/-- Core error type (src/lib.rs `PzshError`); each budget variant
carries `(configured_ms, actual_ms)`. -/
inductive PzshError where
  | StartupBudgetExceeded (configured actual : Nat)
  | ParserBudgetExceeded (configured actual : Nat)
  | ExecutorBudgetExceeded (configured actual : Nat)
  | PromptBudgetExceeded (configured actual : Nat)
  | Config (e : ConfigError)
  | ForbiddenPattern (msg : String)
deriving DecidableEq, Repr

/-- Shell choice as written in the source document
(src/config/mod.rs `ShellTypeConfig`). -/
inductive ShellTypeConfig where
  | Zsh
  | Bash
deriving DecidableEq, Repr

/-- Source configuration (src/config/mod.rs `SourceConfig`), with the
serde section structs (`PzshSection`, `PerformanceSection`,
`PromptSection`, `PluginsSection`) flattened into one record. -/
structure SourceConfig where
  version : String
  shell : ShellTypeConfig
  startup_budget_ms : Nat
  prompt_budget_ms : Nat
  lazy_load : Bool
  prompt_format : String
  git_async : Bool
  git_cache_ms : Nat
  aliases : List (String × String)
  env : List (String × String)
  plugins_enabled : List String
  plugins_lazy : List String
deriving DecidableEq, Repr

/-- The `Default` instance for `SourceConfig` with the documented
default field values (src/config/mod.rs). -/
def SourceConfig.default : SourceConfig :=
  { version := "0.1.0"
    shell := ShellTypeConfig.Zsh
    startup_budget_ms := 10
    prompt_budget_ms := 2
    lazy_load := true
    prompt_format := "{user}@{host} {cwd} {git} {char}"
    git_async := true
    git_cache_ms := 1000
    aliases := []
    env := []
    plugins_enabled := []
    plugins_lazy := [] }

/-- Compiled configuration (src/config/mod.rs `CompiledConfig`). -/
structure CompiledConfig where
  shell_type : ShellType
  startup_budget_ms : Nat
  prompt_budget_ms : Nat
  lazy_load : Bool
  prompt_format : String
  git_async : Bool
  git_cache_ms : Nat
  aliases : List (String × String)
  env : List (String × String)
  plugins_enabled : List String
  plugins_lazy : List String
deriving DecidableEq, Repr

/-- `pat` occurs as a contiguous run inside `l`. -/
def hasInfix (pat : List Char) : List Char → Bool
  | [] => pat.isEmpty
  | c :: tl => pat.isPrefixOf (c :: tl) || hasInfix pat tl

/-- Substring test: Rust `str::contains(pat)`. -/
def containsSub (value pat : String) : Bool :=
  hasInfix pat.data value.data

/-- `CompiledConfig::check_forbidden_patterns` (src/config/mod.rs).
The Rust `_key` parameter is unused by the implementation and omitted. -/
def check_forbidden_patterns (value : String) : Except ConfigError Unit :=
  if containsSub value "$(" || containsSub value "`" then
    Except.error (ConfigError.ForbiddenPattern
      "subprocess call $() or backticks not allowed at startup")
  else if containsSub value "brew --prefix" then
    Except.error (ConfigError.ForbiddenPattern
      "brew --prefix is slow; use hardcoded path")
  else if containsSub value "eval " then
    Except.error (ConfigError.ForbiddenPattern
      "eval not allowed for safety")
  else
    Except.ok ()

/-- The `for (key, value) in &map { check_forbidden_patterns(key, value)? }`
loops in `CompiledConfig::compile`, over one table. -/
def checkValues : List (String × String) → Except ConfigError Unit
  | [] => Except.ok ()
  | kv :: rest =>
    match check_forbidden_patterns kv.2 with
    | Except.error e => Except.error e
    | Except.ok _ => checkValues rest

/-- Shell-type mapping performed inside `CompiledConfig::compile`. -/
def shellOfConfig : ShellTypeConfig → ShellType
  | ShellTypeConfig.Zsh => ShellType.Zsh
  | ShellTypeConfig.Bash => ShellType.Bash

/-- `CompiledConfig::compile` (src/config/mod.rs): checks every env
value, then every alias value, against the forbidden patterns; on
success builds the complete compiled configuration. -/
def compile (source : SourceConfig) : Except ConfigError CompiledConfig :=
  match checkValues source.env with
  | Except.error e => Except.error e
  | Except.ok _ =>
    match checkValues source.aliases with
    | Except.error e => Except.error e
    | Except.ok _ =>
      Except.ok
        { shell_type := shellOfConfig source.shell
          startup_budget_ms := source.startup_budget_ms
          prompt_budget_ms := source.prompt_budget_ms
          lazy_load := source.lazy_load
          prompt_format := source.prompt_format
          git_async := source.git_async
          git_cache_ms := source.git_cache_ms
          aliases := source.aliases
          env := source.env
          plugins_enabled := source.plugins_enabled
          plugins_lazy := source.plugins_lazy }

/-- Spec-level predicate: the value contains one of the four denylisted
fragments checked by `check_forbidden_patterns`. -/
def forbiddenValue (v : String) : Bool :=
  containsSub v "$(" || containsSub v "`" ||
    containsSub v "brew --prefix" || containsSub v "eval "

/-- `CompiledConfig::get_alias`. -/
def CompiledConfig.get_alias (c : CompiledConfig) (name : String) : Option String :=
  c.aliases.lookup name

/-- `CompiledConfig::get_env`. -/
def CompiledConfig.get_env (c : CompiledConfig) (name : String) : Option String :=
  c.env.lookup name

/-- Parsed command representation (src/parser/mod.rs `ParsedCommand`). -/
inductive ParsedCommand where
  | Simple (command : String) (args : List String)
  | Alias (name expansion : String)
  | Builtin (name : String) (args : List String)
  | Empty
deriving DecidableEq, Repr

/-- Parser state (src/parser/mod.rs `Parser`). The LRU cache is
modelled as an association list with newest entries in front; the
capacity-1024 eviction and recency reordering are not observable by
any lookup made at the modelled cache sizes and are not modelled. -/
structure Parser where
  cache : List (String × ParsedCommand)
  aliases : List (String × String)
  builtins : List String
deriving DecidableEq, Repr

/-- The static builtin name list of `Parser::new` (src/parser/mod.rs). -/
def builtinNames : List String :=
  ["cd", "exit", "export", "source", "alias", "unalias", "set", "unset",
   "echo", "printf", "test", "[", "true", "false", "pwd", "pushd", "popd",
   "dirs", "history", "fg", "bg", "jobs", "kill", "wait", "trap", "eval",
   "exec", "builtin", "command", "type", "which", "hash", "help", "let",
   "local", "readonly", "return", "shift", "times", "ulimit", "umask"]

/-- `Parser::new` (src/parser/mod.rs): empty cache, aliases cloned from
the compiled config, builtins from the static list. -/
def Parser.new (config : CompiledConfig) : Parser :=
  { cache := [], aliases := config.aliases, builtins := builtinNames }

/-- Leading/trailing whitespace removal on a char list
(Rust `str::trim`). -/
def trimChars (l : List Char) : List Char :=
  ((l.dropWhile Char.isWhitespace).reverse.dropWhile Char.isWhitespace).reverse

/-- Rust `str::trim` on strings. -/
def strTrim (s : String) : String :=
  String.mk (trimChars s.data)

/-- Worker for `split_whitespace`: `acc` holds the chars of the current
word in reverse. -/
def splitWSAux : List Char → List Char → List String
  | [], acc => if acc = [] then [] else [String.mk acc.reverse]
  | c :: cs, acc =>
    if c.isWhitespace then
      (if acc = [] then [] else [String.mk acc.reverse]) ++ splitWSAux cs []
    else
      splitWSAux cs (c :: acc)

/-- Rust `str::split_whitespace().collect()`: split into the maximal
runs of non-whitespace characters. -/
def split_whitespace (s : String) : List String :=
  splitWSAux s.data []

/-- `Parser::parse_uncached` (src/parser/mod.rs). The Rust function
returns `Result` but every path returns `Ok`; it is modelled total. -/
def parse_uncached (p : Parser) (input : String) : ParsedCommand :=
  let trimmed := strTrim input
  if trimmed = "" then
    ParsedCommand.Empty
  else
    match split_whitespace trimmed with
    | [] => ParsedCommand.Empty
    | command :: args =>
      match p.aliases.lookup command with
      | some expansion => ParsedCommand.Alias command expansion
      | none =>
        if p.builtins.contains command then
          ParsedCommand.Builtin command args
        else
          ParsedCommand.Simple command args

/-- `Parser::parse` (src/parser/mod.rs): cache hit returns immediately;
a miss computes `parse_uncached`, fails with `ParserBudgetExceeded`
when the measured elapsed time exceeds `MAX_PARSER_MS` (result not
cached), otherwise caches and returns the result. -/
def Parser.parse (p : Parser) (input : String) (elapsedMs : Nat) :
    Except PzshError ParsedCommand × Parser :=
  match p.cache.lookup input with
  | some cached => (Except.ok cached, p)
  | none =>
    let result := parse_uncached p input
    if MAX_PARSER_MS < elapsedMs then
      (Except.error (PzshError.ParserBudgetExceeded MAX_PARSER_MS elapsedMs), p)
    else
      (Except.ok result, { p with cache := (input, result) :: p.cache })

/-- `Parser::clear_cache`. -/
def Parser.clear_cache (p : Parser) : Parser :=
  { p with cache := [] }

/-- `Parser::cache_len`. -/
def Parser.cache_len (p : Parser) : Nat :=
  p.cache.length

/-- Frozen environment (src/executor/mod.rs `FrozenEnv`). -/
structure FrozenEnv where
  vars : List (String × String)
deriving DecidableEq, Repr

/-- `FrozenEnv::get`. -/
def FrozenEnv.get (e : FrozenEnv) (key : String) : Option String :=
  e.vars.lookup key

/-- Executor state (src/executor/mod.rs `Executor`). -/
structure Executor where
  env : FrozenEnv
  aliases : List (String × String)
  initialized : Bool
deriving DecidableEq, Repr

/-- `Executor::new`. -/
def Executor.new (config : CompiledConfig) : Executor :=
  { env := { vars := config.env }, aliases := config.aliases, initialized := false }

/-- `Executor::initialize` (src/executor/mod.rs): sets the
`initialized` flag, then fails with `ExecutorBudgetExceeded` when the
measured elapsed time exceeds `MAX_EXECUTOR_MS`. Named `initExec`
because the source name is a Lean keyword. -/
def Executor.initExec (ex : Executor) (elapsedMs : Nat) :
    Except PzshError Unit × Executor :=
  let ex := { ex with initialized := true }
  if MAX_EXECUTOR_MS < elapsedMs then
    (Except.error (PzshError.ExecutorBudgetExceeded MAX_EXECUTOR_MS elapsedMs), ex)
  else
    (Except.ok (), ex)

/-- `Executor::is_initialized`. -/
def Executor.is_initialized (ex : Executor) : Bool :=
  ex.initialized

/-- `Executor::get_env`. -/
def Executor.get_env (ex : Executor) (key : String) : Option String :=
  ex.env.get key

/-- `Executor::get_alias`. -/
def Executor.get_alias (ex : Executor) (name : String) : Option String :=
  ex.aliases.lookup name

/-- `Executor::expand_alias` (src/executor/mod.rs): the alias expansion
when present, the original command otherwise; total, never an error. -/
def Executor.expand_alias (ex : Executor) (command : String) : String :=
  match ex.aliases.lookup command with
  | some expansion => expansion
  | none => command

/-- Compiled prompt segment (src/prompt/mod.rs `PromptSegment`). -/
inductive PromptSegment where
  | Literal (text : String)
  | User
  | Host
  | Cwd
  | Git
  | Char
  | Custom (name : String)
deriving DecidableEq, Repr

/-- Cached git status (src/prompt/mod.rs `GitCache`). The Rust `valid`
field is an `Arc<AtomicBool>` with relaxed ordering; its value is
modelled as a plain `Bool`. -/
structure GitCache where
  branch : Option String
  dirty : Bool
  valid : Bool
deriving DecidableEq, Repr

/-- `GitCache::new`. -/
def GitCache.new : GitCache :=
  { branch := none, dirty := false, valid := false }

/-- `GitCache::is_valid`. -/
def GitCache.is_valid (c : GitCache) : Bool :=
  c.valid

/-- `GitCache::invalidate`: store `false` into the validity flag. -/
def GitCache.invalidate (c : GitCache) : GitCache :=
  { c with valid := false }

/-- `GitCache::render` (src/prompt/mod.rs): `"(branch)"`,
`"(branch*)"` when dirty, `""` when no branch is stored. -/
def GitCache.render (c : GitCache) : String :=
  match c.branch with
  | some branch =>
    let dirtyMarker := if c.dirty then "*" else ""
    "(" ++ branch ++ dirtyMarker ++ ")"
  | none => ""

/-- The keyword table of `Prompt::parse_format`: brace content mapped
to its segment, unrecognized content to `Custom`. -/
def segOfBrace (content : String) : PromptSegment :=
  match content with
  | "user" => PromptSegment.User
  | "host" => PromptSegment.Host
  | "cwd" => PromptSegment.Cwd
  | "git" => PromptSegment.Git
  | "char" => PromptSegment.Char
  | other => PromptSegment.Custom other

/-- The character loop of `Prompt::parse_format` (src/prompt/mod.rs),
with its four loop variables `segments`, `current_literal`, `in_brace`,
`brace_content` made explicit. -/
def parseFormatGo : List Char → List PromptSegment → List Char → Bool → List Char →
    List PromptSegment
  | [], segs, lit, _, _ =>
    if lit = [] then segs else segs ++ [PromptSegment.Literal (String.mk lit)]
  | ch :: rest, segs, lit, inBrace, braceAcc =>
    if ch = '\x7b' ∧ inBrace = false then
      parseFormatGo rest
        (if lit = [] then segs else segs ++ [PromptSegment.Literal (String.mk lit)])
        [] true braceAcc
    else if ch = '\x7d' ∧ inBrace = true then
      parseFormatGo rest (segs ++ [segOfBrace (String.mk braceAcc)]) lit false []
    else if inBrace = true then
      parseFormatGo rest segs lit inBrace (braceAcc ++ [ch])
    else
      parseFormatGo rest segs (lit ++ [ch]) inBrace braceAcc

/-- `Prompt::parse_format`. -/
def parse_format (format : String) : List PromptSegment :=
  parseFormatGo format.data [] [] false []

/-- Prompt renderer state (src/prompt/mod.rs `Prompt`). -/
structure Prompt where
  segments : List PromptSegment
  git_cache : GitCache
  user : String
  host : String
deriving DecidableEq, Repr

/-- `Prompt::new`: the `USER` variable and the hostname are resolved
from the ambient process environment at construction; they enter the
model as the explicit arguments `user` and `host`. -/
def Prompt.new (config : CompiledConfig) (user host : String) : Prompt :=
  { segments := parse_format config.prompt_format
    git_cache := GitCache.new
    user := user
    host := host }

/-- One arm of the segment match inside `Prompt::render`
(src/prompt/mod.rs). The current working directory is resolved from
the ambient environment on every render; it enters as the explicit
argument `cwd`. -/
def renderSegment (p : Prompt) (cwd : String) : PromptSegment → String
  | PromptSegment.Literal s => s
  | PromptSegment.User => p.user
  | PromptSegment.Host => p.host
  | PromptSegment.Cwd => cwd
  | PromptSegment.Git => p.git_cache.render
  | PromptSegment.Char => if p.user = "root" then "#" else "$"
  | PromptSegment.Custom name => "\x7b" ++ name ++ "\x7d"

/-- The output accumulation loop of `Prompt::render`. -/
def Prompt.renderText (p : Prompt) (cwd : String) : String :=
  p.segments.foldl (fun out seg => out ++ renderSegment p cwd seg) ""

/-- `Prompt::render` with its budget check: the accumulated text, or
`PromptBudgetExceeded` when the measured elapsed time exceeds
`MAX_PROMPT_MS`. -/
def Prompt.render (p : Prompt) (cwd : String) (elapsedMs : Nat) :
    Except PzshError String :=
  if MAX_PROMPT_MS < elapsedMs then
    Except.error (PzshError.PromptBudgetExceeded MAX_PROMPT_MS elapsedMs)
  else
    Except.ok (p.renderText cwd)

/-- `Prompt::update_git_cache` (src/prompt/mod.rs): overwrite branch
and dirty, store `true` into the validity flag. -/
def Prompt.update_git_cache (p : Prompt) (branch : Option String) (dirty : Bool) :
    Prompt :=
  { p with git_cache := { branch := branch, dirty := dirty, valid := true } }

/-- `Prompt::invalidate_git_cache`. -/
def Prompt.invalidate_git_cache (p : Prompt) : Prompt :=
  { p with git_cache := p.git_cache.invalidate }

/-- `Prompt::segment_count`. -/
def Prompt.segment_count (p : Prompt) : Nat :=
  p.segments.length

/-- Cache coherence invariant of the parser: every cached entry is the
uncached parse of its key under the parser's current tables. -/
def CacheConsistent (p : Parser) : Prop :=
  ∀ k v, p.cache.lookup k = some v → v = parse_uncached p k

/-- Concrete fixtures used by witness theorems. -/
def demoConfig : CompiledConfig :=
  { shell_type := ShellType.Zsh
    startup_budget_ms := 10
    prompt_budget_ms := 2
    lazy_load := true
    prompt_format := "{user}@{host} {cwd} {git} {char}"
    git_async := true
    git_cache_ms := 1000
    aliases := [("ll", "ls -la")]
    env := [("EDITOR", "vim")]
    plugins_enabled := []
    plugins_lazy := [] }

def pDemo : Parser :=
  Parser.new demoConfig

def pCached : Parser :=
  { cache := [("ll", ParsedCommand.Alias "ll" "ls -la")]
    aliases := [("ll", "ls -la")]
    builtins := builtinNames }

def exDemo : Executor :=
  Executor.new demoConfig

/-- C5: for every parser state in which the input text is present in
the cache, `parse` returns `Ok` with the cached `ParsedCommand` for
every measured elapsed time, never a budget-exceeded error, and leaves
the state unchanged: the cache-hit path performs no budget comparison. -/
theorem parse_cache_hit (p : Parser) (input : String) (c : ParsedCommand)
    (h : p.cache.lookup input = some c) (e : Nat) :
    p.parse input e = (Except.ok c, p) := by
  unfold Parser.parse
  rw [h]

/-- Witness for `parse_cache_hit` at a concrete cached parser, with an
elapsed time far above the budget. -/
theorem parse_cache_hit_w :
    pCached.parse "ll" 99 = (Except.ok (ParsedCommand.Alias "ll" "ls -la"), pCached) :=
  parse_cache_hit pCached "ll" (ParsedCommand.Alias "ll" "ls -la") (by decide) 99

/-- C4: `parse` returns a budget-exceeded error exactly when the call
is a cache miss whose measured elapsed time exceeds `MAX_PARSER_MS`;
the error carries `(configured_ms, actual_ms)`, and in that case the
parser state (in particular its cache) is unchanged. -/
theorem parse_budget_spec (p : Parser) (input : String) (e : Nat) :
    (∀ err, (p.parse input e).1 = Except.error err ↔
      (p.cache.lookup input = none ∧ MAX_PARSER_MS < e ∧
        err = PzshError.ParserBudgetExceeded MAX_PARSER_MS e))
    ∧ (p.cache.lookup input = none → MAX_PARSER_MS < e →
        (p.parse input e).2 = p) := by
  unfold Parser.parse
  cases hl : p.cache.lookup input with
  | some c => simp
  | none =>
    by_cases hb : MAX_PARSER_MS < e
    · simp [hb]
      intro err
      constructor
      · intro h; exact h.symm
      · intro h; exact h.symm
    · simp [hb]

/-- Witness for `parse_budget_spec`: a concrete cache miss with
elapsed time 5 ms errors with the pair `(2, 5)` and leaves the parser
unchanged. -/
theorem parse_budget_spec_w :
    (pDemo.parse "l s" 5).1 =
      Except.error (PzshError.ParserBudgetExceeded MAX_PARSER_MS 5)
    ∧ (pDemo.parse "l s" 5).2 = pDemo :=
  ⟨((parse_budget_spec pDemo "l s" 5).1
      (PzshError.ParserBudgetExceeded MAX_PARSER_MS 5)).mpr
      ⟨by decide, by decide, rfl⟩,
   (parse_budget_spec pDemo "l s" 5).2 (by decide) (by decide)⟩

/-- C8: `expand_alias` returns the alias expansion when the alias
table contains the command and the original command string unchanged
otherwise; it is a total function, never an error. -/
theorem expand_alias_spec (ex : Executor) (command : String) :
    (∀ expansion, ex.aliases.lookup command = some expansion →
      ex.expand_alias command = expansion)
    ∧ (ex.aliases.lookup command = none → ex.expand_alias command = command) := by
  unfold Executor.expand_alias
  constructor
  · intro expansion h; rw [h]
  · intro h; rw [h]

/-- Witness for `expand_alias_spec`: `"ll"` expands to `"ls -la"`,
`"nonexistent"` passes through unchanged. -/
theorem expand_alias_spec_w :
    exDemo.expand_alias "ll" = "ls -la"
    ∧ exDemo.expand_alias "nonexistent" = "nonexistent" :=
  ⟨(expand_alias_spec exDemo "ll").1 "ls -la" (by decide),
   (expand_alias_spec exDemo "nonexistent").2 (by decide)⟩

/-- C9: `invalidate` sets only the validity flag to false, leaving the
stored branch and dirty values unchanged; `update_git_cache` overwrites
branch and dirty and sets the validity flag to true (leaving the
prompt's other fields unchanged). -/
theorem git_cache_frame_spec (c : GitCache) (p : Prompt) (branch : Option String)
    (dirty : Bool) :
    (c.invalidate.branch = c.branch ∧ c.invalidate.dirty = c.dirty
      ∧ c.invalidate.valid = false)
    ∧ ((p.update_git_cache branch dirty).git_cache.branch = branch
      ∧ (p.update_git_cache branch dirty).git_cache.dirty = dirty
      ∧ (p.update_git_cache branch dirty).git_cache.valid = true)
    ∧ (p.invalidate_git_cache.git_cache.branch = p.git_cache.branch
      ∧ p.invalidate_git_cache.git_cache.dirty = p.git_cache.dirty
      ∧ p.invalidate_git_cache.git_cache.valid = false)
    ∧ ((p.update_git_cache branch dirty).segments = p.segments
      ∧ (p.update_git_cache branch dirty).user = p.user
      ∧ (p.update_git_cache branch dirty).host = p.host) :=
  ⟨⟨rfl, rfl, rfl⟩, ⟨rfl, rfl, rfl⟩, ⟨rfl, rfl, rfl⟩, ⟨rfl, rfl, rfl⟩⟩

/-- C10: after any call to `Executor::initialize` (modelled as
`initExec`), whether it returns `Ok` or a budget-exceeded error,
`is_initialized` returns true: the flag is set before the budget
check. -/
theorem initExec_flag_spec (ex : Executor) (e : Nat) :
    ((ex.initExec e).2).is_initialized = true
    ∧ (MAX_EXECUTOR_MS < e → (ex.initExec e).1 =
        Except.error (PzshError.ExecutorBudgetExceeded MAX_EXECUTOR_MS e))
    ∧ (¬ MAX_EXECUTOR_MS < e → (ex.initExec e).1 = Except.ok ()) := by
  unfold Executor.initExec Executor.is_initialized
  by_cases hb : MAX_EXECUTOR_MS < e
  · exact ⟨by simp [hb], fun _ => by simp [hb], fun h => absurd hb h⟩
  · exact ⟨by simp [hb], fun h => absurd h hb, fun _ => by simp [hb]⟩

/-- Witness for `initExec_flag_spec`: initializing with elapsed time
5 ms returns the budget error yet leaves the executor initialized. -/
theorem initExec_flag_spec_w :
    ((exDemo.initExec 5).2).is_initialized = true
    ∧ (exDemo.initExec 5).1 =
        Except.error (PzshError.ExecutorBudgetExceeded MAX_EXECUTOR_MS 5) :=
  ⟨(initExec_flag_spec exDemo 5).1, (initExec_flag_spec exDemo 5).2.1 (by decide)⟩

/-- A nonempty `dropWhile` result contains an element refuting the
predicate (namely its head). -/
theorem dropWhile_exists_false (p : Char → Bool) :
    ∀ l : List Char, l.dropWhile p ≠ [] → ∃ c ∈ l.dropWhile p, p c = false := by
  intro l
  induction l with
  | nil => intro h; simp [List.dropWhile] at h
  | cons c cs ih =>
    intro h
    by_cases hc : p c = true
    · rw [List.dropWhile_cons, if_pos hc] at h ⊢
      exact ih h
    · rw [List.dropWhile_cons, if_neg hc]
      exact ⟨c, by simp, by simpa using hc⟩

/-- `splitWSAux` yields a nonempty word list whenever the accumulator
is nonempty or the remaining input holds a non-whitespace character. -/
theorem splitWSAux_ne_nil :
    ∀ (l acc : List Char),
      (acc ≠ [] ∨ ∃ c ∈ l, c.isWhitespace = false) → splitWSAux l acc ≠ [] := by
  intro l
  induction l with
  | nil =>
    intro acc h
    rcases h with h | ⟨c, hc, _⟩
    · simp [splitWSAux, h]
    · simp at hc
  | cons c cs ih =>
    intro acc h
    by_cases hws : c.isWhitespace = true
    · rcases h with h | ⟨d, hd, hdf⟩
      · simp [splitWSAux, hws, h]
      · rcases List.mem_cons.mp hd with rfl | hd2
        · rw [hws] at hdf; cases hdf
        · have hrec := ih [] (Or.inr ⟨d, hd2, hdf⟩)
          simp only [splitWSAux, hws, if_true]
          intro heq
          rw [List.append_eq_nil] at heq
          exact hrec heq.2
    · have hrec := ih (c :: acc) (Or.inl (by simp))
      simpa [splitWSAux, hws] using hrec

/-- A nonempty trimmed input splits into at least a command token. -/
theorem trim_ne_empty_split (s : String) (h : strTrim s ≠ "") :
    ∃ cmd args, split_whitespace (strTrim s) = cmd :: args := by
  have hl : trimChars s.data ≠ [] := by
    intro hnil
    apply h
    unfold strTrim
    rw [hnil]
  have hex : ∃ c ∈ trimChars s.data, c.isWhitespace = false := by
    unfold trimChars at hl ⊢
    have hdne : (s.data.dropWhile Char.isWhitespace).reverse.dropWhile
        Char.isWhitespace ≠ [] := by
      intro h0
      rw [h0] at hl
      simp at hl
    obtain ⟨c, hc, hcf⟩ := dropWhile_exists_false Char.isWhitespace _ hdne
    exact ⟨c, List.mem_reverse.mpr hc, hcf⟩
  have hne : split_whitespace (strTrim s) ≠ [] := by
    show splitWSAux (trimChars s.data) [] ≠ []
    exact splitWSAux_ne_nil _ [] (Or.inr hex)
  cases hsp : split_whitespace (strTrim s) with
  | nil => exact absurd hsp hne
  | cons cmd args => exact ⟨cmd, args, rfl⟩

/-- Reduction of `parse_uncached` on a nonempty trimmed input with a
known token split. -/
theorem parse_uncached_eq (p : Parser) (input cmd : String) (args : List String)
    (ht : strTrim input ≠ "") (hsp : split_whitespace (strTrim input) = cmd :: args) :
    parse_uncached p input =
      match p.aliases.lookup cmd with
      | some expansion => ParsedCommand.Alias cmd expansion
      | none =>
        if p.builtins.contains cmd then ParsedCommand.Builtin cmd args
        else ParsedCommand.Simple cmd args := by
  unfold parse_uncached
  simp only [if_neg ht, hsp]

/-- C1: on a cache miss (`parse_uncached`) the parser returns `Empty`
exactly when the trimmed input is empty; otherwise, for the command
token produced by whitespace splitting, an alias-table hit yields
`Alias` (even when the command is also a builtin: the alias shadows
it), else a builtin hit yields `Builtin`, else `Simple`. -/
theorem parse_uncached_classify (p : Parser) (input : String) :
    (parse_uncached p input = ParsedCommand.Empty ↔ strTrim input = "")
    ∧ (∀ cmd args expansion, split_whitespace (strTrim input) = cmd :: args →
        p.aliases.lookup cmd = some expansion →
        parse_uncached p input = ParsedCommand.Alias cmd expansion)
    ∧ (∀ cmd args, split_whitespace (strTrim input) = cmd :: args →
        p.aliases.lookup cmd = none → p.builtins.contains cmd = true →
        parse_uncached p input = ParsedCommand.Builtin cmd args)
    ∧ (∀ cmd args, split_whitespace (strTrim input) = cmd :: args →
        p.aliases.lookup cmd = none → p.builtins.contains cmd = false →
        parse_uncached p input = ParsedCommand.Simple cmd args) := by
  have hempty : strTrim input ≠ "" →
      ∀ cmd args, split_whitespace (strTrim input) = cmd :: args →
      parse_uncached p input ≠ ParsedCommand.Empty := by
    intro ht cmd args hsp
    rw [parse_uncached_eq p input cmd args ht hsp]
    cases p.aliases.lookup cmd with
    | some expansion => simp
    | none =>
      by_cases hbu : cmd ∈ p.builtins <;> simp [hbu]
  have htrim : ∀ cmd args, split_whitespace (strTrim input) = cmd :: args →
      strTrim input ≠ "" := by
    intro cmd args hsp h0
    rw [h0] at hsp
    cases hsp
  refine ⟨⟨?_, ?_⟩, ?_, ?_, ?_⟩
  · intro hE
    by_contra ht
    obtain ⟨cmd, args, hsp⟩ := trim_ne_empty_split input ht
    exact hempty ht cmd args hsp hE
  · intro ht
    unfold parse_uncached
    rw [if_pos ht]
  · intro cmd args expansion hsp hlk
    rw [parse_uncached_eq p input cmd args (htrim cmd args hsp) hsp, hlk]
  · intro cmd args hsp hlk hbu
    rw [parse_uncached_eq p input cmd args (htrim cmd args hsp) hsp, hlk]
    have hbu2 : cmd ∈ p.builtins := by simpa using hbu
    simp [hbu2]
  · intro cmd args hsp hlk hbu
    rw [parse_uncached_eq p input cmd args (htrim cmd args hsp) hsp, hlk]
    have hbu2 : cmd ∉ p.builtins := by simpa using hbu
    simp [hbu2]

/-- Witness for `parse_uncached_classify`: `" ll  -a "` trims, splits
into `["ll", "-a"]`, and classifies as the alias `ll -> ls -la`. -/
theorem parse_uncached_classify_w :
    parse_uncached pDemo " ll  -a " = ParsedCommand.Alias "ll" "ls -la" :=
  (parse_uncached_classify pDemo " ll  -a ").2.1 "ll" ["-a"] "ls -la"
    (by decide) (by decide)

/-- `parse` never changes the alias table or the builtin set. -/
theorem parse_preserves_tables (p : Parser) (input : String) (e : Nat) :
    (p.parse input e).2.aliases = p.aliases
    ∧ (p.parse input e).2.builtins = p.builtins := by
  unfold Parser.parse
  cases hl : p.cache.lookup input with
  | some c => exact ⟨rfl, rfl⟩
  | none => by_cases hb : MAX_PARSER_MS < e <;> simp [hb]

/-- `parse_uncached` depends only on the alias table and builtin set. -/
theorem parse_uncached_congr (p q : Parser) (ha : p.aliases = q.aliases)
    (hb : p.builtins = q.builtins) : parse_uncached p = parse_uncached q := by
  funext input
  unfold parse_uncached
  rw [ha, hb]

/-- Every successful `parse` call returns exactly the uncached parse
of its input, given cache coherence. -/
theorem parse_ok_eq_uncached (p : Parser) (input : String) (e : Nat)
    (h : CacheConsistent p) (r : ParsedCommand)
    (hr : (p.parse input e).1 = Except.ok r) : r = parse_uncached p input := by
  unfold Parser.parse at hr
  cases hl : p.cache.lookup input with
  | some c =>
    rw [hl] at hr
    simp at hr
    rw [← hr]
    exact h input c hl
  | none =>
    rw [hl] at hr
    by_cases hb : MAX_PARSER_MS < e
    · simp [hb] at hr
    · simp [hb] at hr
      exact hr.symm

/-- `parse` preserves cache coherence. -/
theorem parse_preserves_consistent (p : Parser) (input : String) (e : Nat)
    (h : CacheConsistent p) : CacheConsistent (p.parse input e).2 := by
  have hpre := parse_preserves_tables p input e
  have hcongr : parse_uncached (p.parse input e).2 = parse_uncached p :=
    parse_uncached_congr _ _ hpre.1 hpre.2
  intro k v hkv
  rw [hcongr]
  revert hkv
  unfold Parser.parse
  cases hl : p.cache.lookup input with
  | some c => exact fun hkv => h k v hkv
  | none =>
    by_cases hb : MAX_PARSER_MS < e
    · simp only [if_pos hb]
      exact fun hkv => h k v hkv
    · simp only [if_neg hb]
      intro hkv
      simp only [List.lookup] at hkv
      by_cases hk : (k == input) = true
      · rw [hk] at hkv
        simp at hkv
        rw [beq_iff_eq] at hk
        subst hk
        exact hkv.symm
      · rw [Bool.not_eq_true] at hk
        rw [hk] at hkv
        exact h k v hkv

/-- C3: for a fixed alias table and builtin set, the cached parser is
equivalent to the uncached parse function on every successful call: a
fresh parser is cache-coherent, any successful `parse` returns the
uncached result, and parsing the same input twice — with or without
clearing the cache in between — yields equal `ParsedCommand` values. -/
theorem parse_deterministic (cfg : CompiledConfig) (p : Parser) (input : String)
    (e1 e2 e3 : Nat) (h : CacheConsistent p) :
    CacheConsistent (Parser.new cfg)
    ∧ (∀ r, (p.parse input e1).1 = Except.ok r → r = parse_uncached p input)
    ∧ (∀ r1 r2, (p.parse input e1).1 = Except.ok r1 →
        (((p.parse input e1).2).parse input e2).1 = Except.ok r2 → r1 = r2)
    ∧ (∀ r1 r2, (p.parse input e1).1 = Except.ok r1 →
        ((((p.parse input e1).2).clear_cache).parse input e3).1 = Except.ok r2 →
        r1 = r2) := by
  have htab := parse_preserves_tables p input e1
  have hcongr : parse_uncached (p.parse input e1).2 = parse_uncached p :=
    parse_uncached_congr _ _ htab.1 htab.2
  refine ⟨?_, ?_, ?_, ?_⟩
  · intro k v hkv
    simp [Parser.new, List.lookup] at hkv
  · intro r hr
    exact parse_ok_eq_uncached p input e1 h r hr
  · intro r1 r2 h1 h2
    have hr1 := parse_ok_eq_uncached p input e1 h r1 h1
    have hc := parse_preserves_consistent p input e1 h
    have hr2 := parse_ok_eq_uncached _ input e2 hc r2 h2
    rw [hr1, hr2, hcongr]
  · intro r1 r2 h1 h2
    have hr1 := parse_ok_eq_uncached p input e1 h r1 h1
    have hcc : CacheConsistent ((p.parse input e1).2).clear_cache := by
      intro k v hkv
      simp [Parser.clear_cache, List.lookup] at hkv
    have hr2 := parse_ok_eq_uncached _ input e3 hcc r2 h2
    have hcongr2 :
        parse_uncached ((p.parse input e1).2).clear_cache =
          parse_uncached (p.parse input e1).2 :=
      parse_uncached_congr _ _ rfl rfl
    rw [hr1, hr2, hcongr2, hcongr]

/-- Witness for `parse_deterministic`: the fresh demo parser parses
`"ll"` to the same alias value before and after a cache round trip. -/
theorem parse_deterministic_w :
    ParsedCommand.Alias "ll" "ls -la" = ParsedCommand.Alias "ll" "ls -la" :=
  (parse_deterministic demoConfig pDemo "ll" 0 0 0
      (fun k v hkv => by simp [pDemo, Parser.new, demoConfig, List.lookup] at hkv)).2.2.1
    (ParsedCommand.Alias "ll" "ls -la") (ParsedCommand.Alias "ll" "ls -la") rfl rfl

/-- A value passes `check_forbidden_patterns` exactly when it contains
none of the four denylisted fragments. -/
theorem check_ok_iff (v : String) :
    check_forbidden_patterns v = Except.ok () ↔ forbiddenValue v = false := by
  unfold check_forbidden_patterns forbiddenValue
  cases ha : containsSub v "$(" <;> cases hb : containsSub v "`" <;>
    cases hc : containsSub v "brew --prefix" <;>
    cases hd : containsSub v "eval " <;> simp [ha, hb, hc, hd]

/-- Every error produced by `check_forbidden_patterns` is a
`ForbiddenPattern`. -/
theorem check_error_fp (v : String) (e : ConfigError)
    (h : check_forbidden_patterns v = Except.error e) :
    ∃ m, e = ConfigError.ForbiddenPattern m := by
  unfold check_forbidden_patterns at h
  split_ifs at h <;> simp_all
  · exact ⟨_, h.symm⟩
  · exact ⟨_, h.symm⟩
  · exact ⟨_, h.symm⟩

/-- `checkValues` succeeds exactly when every value in the table is
free of forbidden fragments. -/
theorem checkValues_ok_iff (l : List (String × String)) :
    checkValues l = Except.ok () ↔ ∀ kv ∈ l, forbiddenValue kv.2 = false := by
  induction l with
  | nil => simp [checkValues]
  | cons kv rest ih =>
    unfold checkValues
    cases hc : check_forbidden_patterns kv.2 with
    | error e =>
      simp only []
      constructor
      · intro h; cases h
      · intro h
        have hok := (check_ok_iff kv.2).mpr (h kv (by simp))
        rw [hok] at hc
        cases hc
    | ok u =>
      cases u
      simp only []
      rw [ih, List.forall_mem_cons]
      have hv := (check_ok_iff kv.2).mp hc
      simp [hv]

/-- Every error produced by `checkValues` is a `ForbiddenPattern`. -/
theorem checkValues_error_fp (l : List (String × String)) (e : ConfigError)
    (h : checkValues l = Except.error e) :
    ∃ m, e = ConfigError.ForbiddenPattern m := by
  induction l with
  | nil => simp [checkValues] at h
  | cons kv rest ih =>
    unfold checkValues at h
    cases hc : check_forbidden_patterns kv.2 with
    | error e2 =>
      rw [hc] at h
      cases h
      exact check_error_fp kv.2 e hc
    | ok u =>
      cases u
      rw [hc] at h
      exact ih h

/-- C2 (amended): `compile` fails exactly when some alias expansion or
environment value contains one of the four denylisted fragments; every
failure is a `ForbiddenPattern` error (carrying a fixed message naming
the matched pattern class, not the offending value); and compilation
is atomic: on success the returned `CompiledConfig` is complete, with
every field taken from the source. -/
theorem compile_spec (source : SourceConfig) :
    ((∃ e, compile source = Except.error e) ↔
      ∃ kv ∈ source.env ++ source.aliases, forbiddenValue kv.2 = true)
    ∧ (∀ e, compile source = Except.error e →
        ∃ m, e = ConfigError.ForbiddenPattern m)
    ∧ (∀ c, compile source = Except.ok c →
        c.aliases = source.aliases ∧ c.env = source.env
        ∧ c.shell_type = shellOfConfig source.shell
        ∧ c.prompt_format = source.prompt_format
        ∧ c.startup_budget_ms = source.startup_budget_ms
        ∧ c.prompt_budget_ms = source.prompt_budget_ms
        ∧ c.lazy_load = source.lazy_load
        ∧ c.git_async = source.git_async
        ∧ c.git_cache_ms = source.git_cache_ms
        ∧ c.plugins_enabled = source.plugins_enabled
        ∧ c.plugins_lazy = source.plugins_lazy) := by
  have hsome : ∀ l : List (String × String),
      checkValues l ≠ Except.ok () → ∃ kv ∈ l, forbiddenValue kv.2 = true := by
    intro l hno
    simp only [ne_eq, checkValues_ok_iff] at hno
    push_neg at hno
    obtain ⟨kv, hmem, hne⟩ := hno
    exact ⟨kv, hmem, by simpa using hne⟩
  unfold compile
  cases he : checkValues source.env with
  | error e =>
    refine ⟨?_, ?_, ?_⟩
    · constructor
      · intro _
        obtain ⟨kv, hmem, hval⟩ := hsome source.env (by rw [he]; intro hx; cases hx)
        exact ⟨kv, List.mem_append_left _ hmem, hval⟩
      · intro _
        exact ⟨e, rfl⟩
    · intro e2 h2
      cases h2
      exact checkValues_error_fp source.env e he
    · intro c hc
      cases hc
  | ok u =>
    cases u
    cases ha : checkValues source.aliases with
    | error e =>
      refine ⟨?_, ?_, ?_⟩
      · constructor
        · intro _
          obtain ⟨kv, hmem, hval⟩ :=
            hsome source.aliases (by rw [ha]; intro hx; cases hx)
          exact ⟨kv, List.mem_append_right _ hmem, hval⟩
        · intro _
          exact ⟨e, rfl⟩
      · intro e2 h2
        cases h2
        exact checkValues_error_fp source.aliases e ha
      · intro c hc
        cases hc
    | ok u2 =>
      cases u2
      refine ⟨?_, ?_, ?_⟩
      · constructor
        · rintro ⟨e, he2⟩
          cases he2
        · rintro ⟨kv, hmem, hval⟩
          rcases List.mem_append.mp hmem with hin | hin
          · have := (checkValues_ok_iff source.env).mp he kv hin
            rw [hval] at this
            cases this
          · have := (checkValues_ok_iff source.aliases).mp ha kv hin
            rw [hval] at this
            cases this
      · intro e2 h2
        cases h2
      · intro c hc
        cases hc
        exact ⟨rfl, rfl, rfl, rfl, rfl, rfl, rfl, rfl, rfl, rfl, rfl⟩

/-- The source configuration of the C2 counterexample: the spec's own
fixture value in the environment table. -/
def cexSource : SourceConfig :=
  { SourceConfig.default with
    env := [("GOROOT", "$(brew --prefix golang)/libexec")] }

/-- C2 counterexample: compiling `cexSource` fails with the fixed
message naming the pattern class; the message does not contain the
offending value (nor its key), refuting "the error identifies the
offending value" as stated. -/
theorem compile_cex :
    compile cexSource =
      Except.error (ConfigError.ForbiddenPattern
        "subprocess call $() or backticks not allowed at startup")
    ∧ containsSub "subprocess call $() or backticks not allowed at startup"
        "$(brew --prefix golang)/libexec" = false
    ∧ containsSub "subprocess call $() or backticks not allowed at startup"
        "GOROOT" = false :=
  ⟨rfl, by decide, by decide⟩

/-- Witness for `compile_spec`: applied at the concrete failing
source, its error is a `ForbiddenPattern`. -/
theorem compile_spec_w :
    ∃ m, ConfigError.ForbiddenPattern
        "subprocess call $() or backticks not allowed at startup" =
      ConfigError.ForbiddenPattern m :=
  (compile_spec cexSource).2.1
    (ConfigError.ForbiddenPattern
      "subprocess call $() or backticks not allowed at startup") rfl

/-- Strings with equal char data are equal. -/
theorem strExt (a b : String) (h : a.data = b.data) : a = b := by
  cases a
  cases b
  cases h
  rfl

/-- Appending the empty string is the identity. -/
theorem strAppendNil (s : String) : s ++ "" = s := by
  apply strExt
  show s.data ++ [] = s.data
  rw [List.append_nil]

/-- String append concatenates the underlying char data. -/
theorem strDataAppend (a b : String) : (a ++ b).data = a.data ++ b.data := rfl

/-- The segment accumulator of `parseFormatGo` is a prefix that
distributes over the rest of the scan. -/
theorem parseFormatGo_append :
    ∀ (cs : List Char) (segs : List PromptSegment) (lit : List Char) (inb : Bool)
      (br : List Char),
      parseFormatGo cs segs lit inb br = segs ++ parseFormatGo cs [] lit inb br := by
  intro cs
  induction cs with
  | nil =>
    intro segs lit inb br
    simp only [parseFormatGo]
    by_cases h : lit = [] <;> simp [h]
  | cons ch rest ih =>
    intro segs lit inb br
    simp only [parseFormatGo]
    by_cases h1 : ch = '\x7b' ∧ inb = false
    · rw [if_pos h1, if_pos h1]
      by_cases h : lit = []
      · rw [if_pos h, if_pos h]
        exact ih segs [] true br
      · rw [if_neg h, if_neg h, List.nil_append]
        rw [ih (segs ++ [PromptSegment.Literal (String.mk lit)]) [] true br]
        rw [ih [PromptSegment.Literal (String.mk lit)] [] true br]
        rw [List.append_assoc]
    · rw [if_neg h1, if_neg h1]
      by_cases h2 : ch = '\x7d' ∧ inb = true
      · rw [if_pos h2, if_pos h2, List.nil_append]
        rw [ih (segs ++ [segOfBrace (String.mk br)]) lit false []]
        rw [ih [segOfBrace (String.mk br)] lit false []]
        rw [List.append_assoc]
      · rw [if_neg h2, if_neg h2]
        by_cases h3 : inb = true
        · rw [if_pos h3, if_pos h3]
          exact ih segs lit inb (br ++ [ch])
        · rw [if_neg h3, if_neg h3]
          exact ih segs (lit ++ [ch]) inb br

/-- Outside braces, a run of brace-free characters accumulates into
the pending literal. -/
theorem parseFormatGo_lit :
    ∀ (xs cs : List Char) (segs : List PromptSegment) (lit br : List Char),
      (∀ c ∈ xs, c ≠ '\x7b' ∧ c ≠ '\x7d') →
      parseFormatGo (xs ++ cs) segs lit false br =
        parseFormatGo cs segs (lit ++ xs) false br := by
  intro xs
  induction xs with
  | nil => intro cs segs lit br h; simp
  | cons x xt ih =>
    intro cs segs lit br h
    have hx := h x (by simp)
    have n1 : ¬(x = '\x7b' ∧ True) := fun hh => hx.1 hh.1
    have n2 : ¬(x = '\x7d' ∧ (false : Bool) = true) := fun hh => by cases hh.2
    have n3 : ¬((false : Bool) = true) := by simp
    simp only [List.cons_append, parseFormatGo]
    rw [if_neg n1, if_neg n2, if_neg n3]
    simp only [List.append_eq]
    rw [ih cs segs (lit ++ [x]) br (fun c hc => h c (by simp [hc]))]
    rw [List.append_assoc]
    rfl

/-- Inside braces, a run of brace-free characters accumulates into the
brace content. -/
theorem parseFormatGo_brace :
    ∀ (xs cs : List Char) (segs : List PromptSegment) (lit br : List Char),
      (∀ c ∈ xs, c ≠ '\x7b' ∧ c ≠ '\x7d') →
      parseFormatGo (xs ++ cs) segs lit true br =
        parseFormatGo cs segs lit true (br ++ xs) := by
  intro xs
  induction xs with
  | nil => intro cs segs lit br h; simp
  | cons x xt ih =>
    intro cs segs lit br h
    have hx := h x (by simp)
    have n1 : ¬(x = '\x7b' ∧ (true : Bool) = false) := fun hh => by cases hh.2
    have n2 : ¬(x = '\x7d' ∧ True) := fun hh => hx.2 hh.1
    simp only [List.cons_append, parseFormatGo]
    rw [if_neg n1, if_neg n2, if_pos trivial]
    simp only [List.append_eq]
    rw [ih cs segs lit (br ++ [x]) (fun c hc => h c (by simp [hc]))]
    rw [List.append_assoc]
    rfl

/-- C6: compiling a prompt format string scans it once left to right:
brace-free text before a `\x7b` flushes as a `Literal` segment when
nonempty; the brace content maps `user`/`host`/`cwd`/`git`/`char` to
the corresponding typed segment and any other content to `Custom`,
which renders back literally in braces at render time — never an
error; brace-free text with no brace at all flushes at end of
string. -/
theorem parse_format_spec :
    (∀ (lit name rest : List Char),
      (∀ c ∈ lit, c ≠ '\x7b' ∧ c ≠ '\x7d') →
      (∀ c ∈ name, c ≠ '\x7b' ∧ c ≠ '\x7d') →
      parse_format (String.mk (lit ++ '\x7b' :: (name ++ '\x7d' :: rest))) =
        (if lit = [] then [] else [PromptSegment.Literal (String.mk lit)]) ++
          segOfBrace (String.mk name) :: parseFormatGo rest [] [] false [])
    ∧ (∀ s : String, (∀ c ∈ s.data, c ≠ '\x7b' ∧ c ≠ '\x7d') →
        parse_format s = if s.data = [] then [] else [PromptSegment.Literal s])
    ∧ (segOfBrace "user" = PromptSegment.User
      ∧ segOfBrace "host" = PromptSegment.Host
      ∧ segOfBrace "cwd" = PromptSegment.Cwd
      ∧ segOfBrace "git" = PromptSegment.Git
      ∧ segOfBrace "char" = PromptSegment.Char)
    ∧ (∀ name : String, name ≠ "user" → name ≠ "host" → name ≠ "cwd" →
        name ≠ "git" → name ≠ "char" →
        segOfBrace name = PromptSegment.Custom name)
    ∧ (∀ (p : Prompt) (cwd name : String),
        renderSegment p cwd (PromptSegment.Custom name) =
          "\x7b" ++ name ++ "\x7d") := by
  refine ⟨?_, ?_, ⟨rfl, rfl, rfl, rfl, rfl⟩, ?_, ?_⟩
  · intro lit name rest hlit hname
    show parseFormatGo (lit ++ '\x7b' :: (name ++ '\x7d' :: rest)) [] [] false [] = _
    rw [parseFormatGo_lit lit ('\x7b' :: (name ++ '\x7d' :: rest)) [] [] [] hlit]
    rw [List.nil_append]
    simp only [parseFormatGo]
    rw [if_pos (⟨trivial, trivial⟩ : True ∧ True)]
    rw [parseFormatGo_brace name ('\x7d' :: rest) _ [] [] hname]
    rw [List.nil_append]
    simp only [parseFormatGo]
    have n1 : ¬(('\x7d' : Char) = '\x7b' ∧ (true : Bool) = false) :=
      fun hh => by cases hh.2
    rw [if_neg n1, if_pos (⟨trivial, trivial⟩ : True ∧ True)]
    rw [parseFormatGo_append rest _ [] false []]
    by_cases h : lit = [] <;> simp [h]
  · intro s h
    have key := parseFormatGo_lit s.data [] [] [] [] h
    rw [List.append_nil, List.nil_append] at key
    show parseFormatGo s.data [] [] false [] = _
    rw [key]
    simp only [parseFormatGo]
    by_cases hd : s.data = [] <;> simp [hd]
  · intro name h1 h2 h3 h4 h5
    unfold segOfBrace
    split <;> simp_all
  · intro p cwd name
    rfl

/-- Witness for `parse_format_spec`: the format `"ab\x7bgit\x7d"`
compiles to a literal followed by the git segment. -/
theorem parse_format_spec_w :
    parse_format (String.mk (['a', 'b'] ++ '\x7b' :: (['g', 'i', 't'] ++ '\x7d' :: []))) =
      (if (['a', 'b'] : List Char) = [] then []
        else [PromptSegment.Literal (String.mk ['a', 'b'])]) ++
        segOfBrace (String.mk ['g', 'i', 't']) :: parseFormatGo [] [] [] false [] :=
  parse_format_spec.1 ['a', 'b'] ['g', 'i', 't'] [] (by decide) (by decide)

/-- C7: the rendered git segment depends only on the stored branch and
dirty flag, never on the validity flag — empty when no branch,
`"(branch)"` when clean, `"(branch*)"` when dirty — and the `Char`
segment renders `#` exactly when the resolved user is `"root"`, `$`
otherwise. -/
theorem git_char_render_spec :
    (∀ c1 c2 : GitCache, c1.branch = c2.branch → c1.dirty = c2.dirty →
      c1.render = c2.render)
    ∧ (∀ c : GitCache, c.branch = none → c.render = "")
    ∧ (∀ (c : GitCache) (b : String), c.branch = some b → c.dirty = false →
        c.render = "(" ++ b ++ ")")
    ∧ (∀ (c : GitCache) (b : String), c.branch = some b → c.dirty = true →
        c.render = "(" ++ b ++ "*)")
    ∧ (∀ (p : Prompt) (cwd : String), p.user = "root" →
        renderSegment p cwd PromptSegment.Char = "#")
    ∧ (∀ (p : Prompt) (cwd : String), p.user ≠ "root" →
        renderSegment p cwd PromptSegment.Char = "$") := by
  refine ⟨?_, ?_, ?_, ?_, ?_, ?_⟩
  · rintro ⟨b1, d1, v1⟩ ⟨b2, d2, v2⟩ h1 h2
    simp only at h1 h2
    subst h1
    subst h2
    rfl
  · rintro ⟨b, d, v⟩ hb
    simp only at hb
    subst hb
    rfl
  · rintro ⟨br, d, v⟩ b hb hd
    simp only at hb hd
    subst hb
    subst hd
    show "(" ++ b ++ "" ++ ")" = "(" ++ b ++ ")"
    rw [strAppendNil]
  · rintro ⟨br, d, v⟩ b hb hd
    simp only at hb hd
    subst hb
    subst hd
    show "(" ++ b ++ "*" ++ ")" = "(" ++ b ++ "*)"
    apply strExt
    simp [strDataAppend]
  · intro p cwd h
    show (if p.user = "root" then "#" else "$") = "#"
    rw [if_pos h]
  · intro p cwd h
    show (if p.user = "root" then "#" else "$") = "$"
    rw [if_neg h]

/-- Witness for `git_char_render_spec`: a clean `main` branch renders
`"(main)"` and a dirty `feature` branch renders `"(feature*)"`,
regardless of the validity flag. -/
theorem git_char_render_spec_w :
    GitCache.render { branch := some "main", dirty := false, valid := true } =
      "(" ++ "main" ++ ")"
    ∧ GitCache.render { branch := some "feature", dirty := true, valid := false } =
      "(" ++ "feature" ++ "*)" :=
  ⟨git_char_render_spec.2.2.1
      { branch := some "main", dirty := false, valid := true } "main" rfl rfl,
   git_char_render_spec.2.2.2.1
      { branch := some "feature", dirty := true, valid := false } "feature" rfl rfl⟩

end Pzsh
